import Mathlib

/-
Verification of the FIFO lot-matching engine of tw-pnl.py.

Modelling conventions:
* Python floats (prices, fees, amounts, PnL) are modelled as rationals (ℚ);
  the spec treats them as real numbers.
* Python ints (quantities) are modelled as ℤ.
* The ledger map `fifos` (a Python dict from asset string to a deque of
  [price, quantity] lots) is modelled as an association list
  `List (String × List Lot)`.  A Python dict has unique keys; where a
  property needs that, it appears as the `keysNodup` hypothesis.
  Dict lookup / in-place update / deletion become `findFifo` / `setFifo` /
  `delFifo` (update in place keeps the key's position, insertion of a new
  key appends at the end, matching Python 3.7+ dict ordering).
* Python `raise` in the processing loop is modelled by `Except String`.
-/

/-- A lot `[price, quantity]` as stored in a deque by `fifo_add`. -/
structure Lot where
  price : ℚ
  quantity : ℤ
deriving DecidableEq

abbrev Fifo := List Lot

abbrev Fifos := List (String × Fifo)

/-- `sign` from tw-pnl.py lines 93-96: `1` if `x >= 0` else `-1`. -/
def sign (x : ℤ) : ℤ :=
  if x ≥ 0 then 1 else -1

/-- Dict lookup `fifos.get(asset)`: first binding of the key, if any. -/
def findFifo : Fifos → String → Option Fifo
  | [], _ => none
  | (k, f) :: rest, a => if k = a then some f else findFifo rest a

/-- Dict store `fifos[asset] = fifo`: replace the first binding in place,
or append a new binding at the end (Python dict insertion order). -/
def setFifo : Fifos → String → Fifo → Fifos
  | [], a, f => [(a, f)]
  | (k, g) :: rest, a, f =>
    if k = a then (a, f) :: rest else (k, g) :: setFifo rest a f

/-- Dict deletion `del fifos[asset]`: drop the first binding of the key. -/
def delFifo : Fifos → String → Fifos
  | [], _ => []
  | (k, g) :: rest, a => if k = a then rest else (k, g) :: delFifo rest a

/-- The keys of the association list are pairwise distinct: every Python
dict state satisfies this. -/
def keysNodup (fifos : Fifos) : Prop :=
  (fifos.map Prod.fst).Nodup

/-- The `while` loop of `fifo_add` (tw-pnl.py lines 112-127) together with
the final `fifo.append([price, quantity])` (line 127).  Arguments: running
`quantity`, the remaining deque, and the accumulated `pnl`.  Returns the
final pnl and the resulting deque for this asset (possibly empty, in which
case `fifo_add` deletes the asset key). -/
def fifo_add_loop (price : ℚ) : ℤ → Fifo → ℚ → ℚ × Fifo
  | q, [], pnl => (pnl, [⟨price, q⟩])
  | q, lot :: rest, pnl =>
    if sign lot.quantity = sign q then
      -- line 113-114: break, then line 127 appends at the back
      (pnl, lot :: rest ++ [⟨price, q⟩])
    else if |lot.quantity| ≥ |q| then
      -- lines 115-122: full absorption, immediate return (no append)
      (pnl + (q : ℚ) * (lot.price - price),
        if lot.quantity + q = 0 then rest
        else ⟨lot.price, lot.quantity + q⟩ :: rest)
    else
      -- lines 123-126: consume the front lot and continue
      fifo_add_loop price (q + lot.quantity) rest
        (pnl + (lot.quantity : ℚ) * (price - lot.price))

/-- `fifo_add(fifos, quantity, price, asset)` from tw-pnl.py lines 98-128:
returns the realized pnl for this event and the updated ledger map.
A missing key starts from the empty deque (lines 109-110); the key is
deleted exactly when the resulting deque is empty (lines 118-121), which
the source only reaches inside the full-absorption branch. -/
def fifo_add (fifos : Fifos) (quantity : ℤ) (price : ℚ) (asset : String) :
    ℚ × Fifos :=
  let fifo := (findFifo fifos asset).getD []
  let r := fifo_add_loop price quantity fifo 0
  if r.2 = [] then (r.1, delFifo fifos asset)
  else (r.1, setFifo fifos asset r.2)

/-- Observer of the loop of `fifo_add`: the value of `quantity` at the
moment the loop exits through `break` (line 114) or through exhaustion of
the deque — i.e. the quantity that line 127 appends; `none` when the loop
instead returns inside the full-absorption branch (line 122). -/
def loop_residual : ℤ → Fifo → Option ℤ
  | q, [] => some q
  | q, lot :: rest =>
    if sign lot.quantity = sign q then some q
    else if |lot.quantity| ≥ |q| then none
    else loop_residual (q + lot.quantity) rest

/-- The loop of `fifo_add` with explicit fuel, one unit per iteration of
the `while` loop (the source's loop pops one element of the deque per
iteration that continues).  `none` models a loop that is still running
when the fuel runs out; every `some` exit corresponds to a normal return
of the source, which contains no `raise` and whose deque accesses
(`fifo[0]`, `popleft`) are all guarded by the `len(fifo) > 0` test. -/
def fifo_add_loop_fuel (price : ℚ) : ℕ → ℤ → Fifo → ℚ → Option (ℚ × Fifo)
  | 0, _, _, _ => none
  | _ + 1, q, [], pnl => some (pnl, [⟨price, q⟩])
  | n + 1, q, lot :: rest, pnl =>
    if sign lot.quantity = sign q then
      some (pnl, lot :: rest ++ [⟨price, q⟩])
    else if |lot.quantity| ≥ |q| then
      some (pnl + (q : ℚ) * (lot.price - price),
        if lot.quantity + q = 0 then rest
        else ⟨lot.price, lot.quantity + q⟩ :: rest)
    else
      fifo_add_loop_fuel price n (q + lot.quantity) rest
        (pnl + (lot.quantity : ℚ) * (price - lot.price))

/-- `fifo_add` with the fuelled loop, fuel `length + 1` (at most one
iteration per initial element of the deque, plus the final exit). -/
def fifo_add_fuel (fifos : Fifos) (quantity : ℤ) (price : ℚ)
    (asset : String) : Option (ℚ × Fifos) :=
  let fifo := (findFifo fifos asset).getD []
  match fifo_add_loop_fuel price (fifo.length + 1) quantity fifo 0 with
  | none => none
  | some r =>
    some (if r.2 = [] then (r.1, delFifo fifos asset)
          else (r.1, setFifo fifos asset r.2))

/-- `fifos_islong(fifos, asset)` from tw-pnl.py lines 130-131:
`fifos[asset][0][1] > 0`.  A missing key raises `KeyError`, an empty
deque raises `IndexError`; both are modelled as `Except.error`. -/
def fifos_islong (fifos : Fifos) (asset : String) : Except String Bool :=
  match findFifo fifos asset with
  | none => .error "KeyError"
  | some [] => .error "IndexError"
  | some (lot :: _) => .ok (lot.quantity > 0)

/-- Lines 256-258 of the processing loop: the signed quantity handed to
`fifo_add`.  `buysell = none` models a `nan` cell (Python compares
`str(buysell) == 'Sell'`, and `or` / `and` short-circuit, so
`fifos_islong` is only consulted for the three directionless subcodes
when `buysell` is not `'Sell'`). -/
def resolve_quantity (fifos : Fifos) (asset : String) (tsubcode : String)
    (buysell : Option String) (quantity : ℤ) : Except String ℤ :=
  if buysell = some "Sell" then .ok (-quantity)
  else if tsubcode = "Expiration" ∨ tsubcode = "Exercise"
      ∨ tsubcode = "Assignment" then
    match fifos_islong fifos asset with
    | .error e => .error e
    | .ok islong => if islong then .ok (-quantity) else .ok quantity
  else .ok quantity

/-- `is_stock(symbol)` from tw-pnl.py lines 76-91 with the default
`conservative=True`: known ETFs are not stocks, three known tickers are,
anything else raises. -/
def is_stock (symbol : String) : Except String Bool :=
  if symbol ∈ ["DXJ", "EEM", "EFA", "EFA", "EWZ", "FEZ", "FXB", "FXE",
      "FXI", "GDX", "GDXJ", "GLD", "HYG", "IEF", "IWM", "IYR", "KRE",
      "OIH", "QQQ", "RSX", "SLV", "SMH", "SPY", "TLT", "UNG", "USO",
      "VXX", "XBI", "XHB", "XLB", "XLE", "XLF", "XLI", "XLK", "XLP",
      "XLU", "XLV", "XME", "XOP", "XRT"] then .ok false
  else if symbol ∈ ["M", "AAPL", "TSLA"] then .ok true
  else .error "No idea if this is a stock"

/-- `math.isclose(a, b, abs_tol=0.00001)`: the default relative
tolerance `1e-9` stays in force, so the test is
`|a-b| <= max(1e-9 * max(|a|,|b|), 1e-5)`. -/
def isclose (a b : ℚ) : Bool :=
  |a - b| ≤ max ((1 / 1000000000) * max |a| |b|) (1 / 100000)

/-- `check_trade(tsubcode, check_amount, amount)` from tw-pnl.py lines
63-72.  `amount` is modelled as a present rational (the `str(x) != 'nan'`
escape for missing cells is floating-point NaN plumbing outside this
embedding). -/
def check_trade (tsubcode : String) (check_amount amount : ℚ) :
    Except String Unit :=
  if tsubcode ∈ ["Expiration", "Assignment", "Exercise"] then
    if amount ≠ 0 then .error "amount for settlement event"
    else if check_amount ≠ 0 then .error "check amount for settlement event"
    else .ok ()
  else
    if isclose check_amount amount then .ok ()
    else .error "amount mismatch"

/-- The strike as interpolated into the asset key (line 247-249): an
integral float is coerced to `int` before `'%s'` formatting.  For a
non-integral strike Python prints the float's repr; the textual rendering
of that case differs here, but no claim inspects the key's text. -/
def strike_str (strike : ℚ) : String :=
  if strike.den = 1 then toString strike.num else toString strike

/-- Line 245: `strptime(expire, '%m/%d/%Y').strftime('%y-%m-%d')` on a
well-formed `MM/DD/YYYY` date (an unparsable date raises in Python; no
claim concerns that path). -/
def convert_expire (s : String) : String :=
  ((s.drop 8).take 2) ++ "-" ++ (s.take 2) ++ "-" ++ ((s.drop 3).take 2)

/-- Line 249: `'%s %s%s %s' % (symbol, callput, strike, expire)`. -/
def option_asset (symbol callput strike expire : String) : String :=
  symbol ++ " " ++ callput ++ strike ++ " " ++ expire

/-- One row of the transaction sheet as seen by the non-`Money Movement`
branch of `check` (tw-pnl.py lines 241-266), after the generic cell
conversions of lines 172-189: `quantity` is already validated as an
integer (lines 178-181), `price`/`callput`/`expire` use `none` for a
`nan` cell, `fees` and `amount` are present floats. -/
structure Row where
  tsubcode : String
  buysell : Option String
  callput : Option String
  quantity : ℤ
  symbol : String
  expire : Option String
  strike : ℚ
  price : Option ℚ
  fees : ℚ
  amount : ℚ
deriving DecidableEq

/-- Lines 186-189 and 241-260 of the processing loop: everything that
happens to a trade row before `fifo_add` is called.  Returns the asset
key, the signed quantity, the per-unit price handed to `fifo_add`
(line 260: `abs((amount - fees) / quantity)`), and the `check_stock`
flag.  Any `raise` on this path becomes an `Except.error`; dividing by a
zero quantity at line 260 is Python's `ZeroDivisionError`. -/
def trade_inputs (fifos : Fifos) (row : Row) :
    Except String (String × ℤ × ℚ × Bool) :=
  let price0 := row.price.getD 0
  if price0 < 0 then .error "negative price"
  else
    let res : Except String (String × ℚ × Bool) :=
      match row.expire with
      | some e =>
        .ok (option_asset row.symbol (row.callput.getD "nan")
              (strike_str row.strike) (convert_expire e),
            price0 * 100, false)
      | none =>
        match is_stock row.symbol with
        | .error e => .error e
        | .ok s => .ok (row.symbol, price0, s)
    match res with
    | .error e => .error e
    | .ok (asset, price, check_stock) =>
      match resolve_quantity fifos asset row.tsubcode row.buysell
          row.quantity with
      | .error e => .error e
      | .ok quantity =>
        match check_trade row.tsubcode (-((quantity : ℚ) * price))
            row.amount with
        | .error e => .error e
        | .ok _ =>
          if quantity = 0 then .error "ZeroDivisionError"
          else .ok (asset, quantity,
            |(row.amount - row.fees) / (quantity : ℚ)|, check_stock)

/-- Lines 241-266 end to end: derive the inputs, then run `fifo_add`;
returns the realized pnl of the row, the updated ledger map, and the
`check_stock` flag used for pnl bucketing. -/
def process_trade (fifos : Fifos) (row : Row) :
    Except String (ℚ × Fifos × Bool) :=
  match trade_inputs fifos row with
  | .error e => .error e
  | .ok (asset, quantity, price, check_stock) =>
    let r := fifo_add fifos quantity price asset
    .ok (r.1, r.2, check_stock)

/-- Net open quantity of an asset: the sum of the signed quantities of
its lots (zero when the key is absent). -/
def netQuantity (fifos : Fifos) (asset : String) : ℤ :=
  (((findFifo fifos asset).getD []).map Lot.quantity).sum

/-- Ledger-map states reachable from the empty map by `fifo_add` calls
with non-zero quantity. -/
inductive ReachableNZ : Fifos → Prop where
  | empty : ReachableNZ []
  | step (fifos : Fifos) (q : ℤ) (p : ℚ) (a : String) :
      ReachableNZ fifos → q ≠ 0 → ReachableNZ (fifo_add fifos q p a).2

/-- A well-formed ledger entry: a non-empty queue whose lots all have
non-zero quantity and a uniform `sign` value. -/
def goodEntry (e : String × Fifo) : Prop :=
  e.2 ≠ [] ∧ (∀ lot ∈ e.2, lot.quantity ≠ 0) ∧
    ∃ s, ∀ lot ∈ e.2, sign lot.quantity = s

/-- Every entry of the ledger map is well-formed. -/
def goodFifos (fifos : Fifos) : Prop :=
  ∀ e ∈ fifos, goodEntry e

/-- C1: FIFO matching is oldest-first: from the empty map, `+5@100` then
`+5@200` then `-5@150` on asset `a` matches the `@100` lot first, realizes
PnL `5*(150-100) = 250`, and leaves the single lot `{200, +5}`. -/
theorem fifo_oldest_first :
    fifo_add (fifo_add (fifo_add [] 5 100 "a").2 5 200 "a").2 (-5) 150 "a"
      = (250, [("a", [⟨200, 5⟩])]) := by
  norm_num [fifo_add, fifo_add_loop, findFifo, setFifo, delFifo, sign]

theorem sign_eq_one_iff_nonneg (x : ℤ) : sign x = 1 ↔ 0 ≤ x := by
  unfold sign; split <;> omega

theorem sign_eq_neg_one_iff_neg (x : ℤ) : sign x = -1 ↔ x < 0 := by
  unfold sign; split <;> omega

theorem sign_opp (a q : ℤ) (h : sign a ≠ sign q) :
    (0 ≤ a ∧ q < 0) ∨ (a < 0 ∧ 0 ≤ q) := by
  unfold sign at h; split_ifs at h <;> omega

theorem absorb_sign (a q : ℤ) (hne : sign a ≠ sign q) (habs : |q| ≤ |a|)
    (hnz : a + q ≠ 0) : sign (a + q) = sign a := by
  rcases sign_opp a q hne with ⟨ha, hq⟩ | ⟨ha, hq⟩
  · rw [abs_of_neg hq, abs_of_nonneg ha] at habs
    rw [(sign_eq_one_iff_nonneg a).mpr ha, sign_eq_one_iff_nonneg]; omega
  · rw [abs_of_nonneg hq, abs_of_neg ha] at habs
    rw [(sign_eq_neg_one_iff_neg a).mpr ha, sign_eq_neg_one_iff_neg]; omega

theorem consume_nz (a q : ℤ) (hne : sign a ≠ sign q) (habs : |a| < |q|) :
    q + a ≠ 0 ∧ sign (q + a) = sign q := by
  rcases sign_opp a q hne with ⟨ha, hq⟩ | ⟨ha, hq⟩
  · rw [abs_of_neg hq, abs_of_nonneg ha] at habs
    rw [(sign_eq_neg_one_iff_neg q).mpr hq, sign_eq_neg_one_iff_neg]
    omega
  · rw [abs_of_nonneg hq, abs_of_neg ha] at habs
    rw [(sign_eq_one_iff_nonneg q).mpr hq, sign_eq_one_iff_nonneg]
    omega

theorem findFifo_mem (fifos : Fifos) (a : String) (v : Fifo)
    (h : findFifo fifos a = some v) : (a, v) ∈ fifos := by
  induction fifos with
  | nil => simp [findFifo] at h
  | cons e rest ih =>
    obtain ⟨k, g⟩ := e
    by_cases hk : k = a
    · subst hk
      have hg : g = v := by simpa [findFifo] using h
      subst hg
      exact List.mem_cons_self _ _
    · simp only [findFifo, if_neg hk] at h
      exact List.mem_cons_of_mem _ (ih h)

theorem mem_setFifo (fifos : Fifos) (a : String) (v : Fifo)
    (e : String × Fifo) (h : e ∈ setFifo fifos a v) :
    e = (a, v) ∨ e ∈ fifos := by
  induction fifos with
  | nil => simp [setFifo] at h; exact Or.inl h
  | cons x rest ih =>
    obtain ⟨k, g⟩ := x
    by_cases hk : k = a
    · simp only [setFifo, if_pos hk, List.mem_cons] at h
      rcases h with h | h
      · exact Or.inl h
      · exact Or.inr (List.mem_cons_of_mem _ h)
    · simp only [setFifo, if_neg hk, List.mem_cons] at h
      rcases h with h | h
      · exact Or.inr (by simp [h])
      · rcases ih h with h | h
        · exact Or.inl h
        · exact Or.inr (List.mem_cons_of_mem _ h)

theorem mem_delFifo (fifos : Fifos) (a : String)
    (e : String × Fifo) (h : e ∈ delFifo fifos a) : e ∈ fifos := by
  induction fifos with
  | nil => simp [delFifo] at h
  | cons x rest ih =>
    obtain ⟨k, g⟩ := x
    by_cases hk : k = a
    · simp only [delFifo, if_pos hk] at h
      exact List.mem_cons_of_mem _ h
    · simp only [delFifo, if_neg hk, List.mem_cons] at h
      rcases h with h | h
      · exact h ▸ List.mem_cons_self _ _
      · exact List.mem_cons_of_mem _ (ih h)

theorem setFifo_self (fifos : Fifos) (a : String) (v : Fifo)
    (h : findFifo fifos a = some v) : setFifo fifos a v = fifos := by
  induction fifos with
  | nil => simp [findFifo] at h
  | cons x rest ih =>
    obtain ⟨k, g⟩ := x
    by_cases hk : k = a
    · subst hk
      have hg : g = v := by simpa [findFifo] using h
      simp [setFifo, hg]
    · simp only [findFifo, if_neg hk] at h
      simp [setFifo, hk, ih h]

theorem findFifo_setFifo_ne (fifos : Fifos) (a b : String) (v : Fifo)
    (h : b ≠ a) : findFifo (setFifo fifos a v) b = findFifo fifos b := by
  have hab : a ≠ b := fun hc => h hc.symm
  induction fifos with
  | nil => simp [setFifo, findFifo, hab]
  | cons x rest ih =>
    obtain ⟨k, g⟩ := x
    by_cases hk : k = a
    · subst hk
      simp [setFifo, findFifo, hab]
    · simp only [setFifo, if_neg hk, findFifo]
      by_cases hkb : k = b
      · simp [hkb]
      · simp [hkb, ih]

theorem findFifo_delFifo_ne (fifos : Fifos) (a b : String)
    (h : b ≠ a) : findFifo (delFifo fifos a) b = findFifo fifos b := by
  have hab : a ≠ b := fun hc => h hc.symm
  induction fifos with
  | nil => simp [delFifo]
  | cons x rest ih =>
    obtain ⟨k, g⟩ := x
    by_cases hk : k = a
    · subst hk
      simp [delFifo, findFifo, hab]
    · simp only [delFifo, if_neg hk, findFifo]
      by_cases hkb : k = b
      · simp [hkb]
      · simp [hkb, ih]

theorem findFifo_setFifo_self (fifos : Fifos) (a : String) (v : Fifo) :
    findFifo (setFifo fifos a v) a = some v := by
  induction fifos with
  | nil => simp [setFifo, findFifo]
  | cons x rest ih =>
    obtain ⟨k, g⟩ := x
    by_cases hk : k = a
    · simp [setFifo, hk, findFifo]
    · simp [setFifo, hk, findFifo, ih]

theorem findFifo_delFifo_self (fifos : Fifos) (a : String)
    (h : keysNodup fifos) : findFifo (delFifo fifos a) a = none := by
  induction fifos with
  | nil => simp [delFifo, findFifo]
  | cons x rest ih =>
    obtain ⟨k, g⟩ := x
    simp only [keysNodup, List.map_cons, List.nodup_cons] at h
    by_cases hk : k = a
    · subst hk
      have hd : delFifo ((k, g) :: rest) k = rest := by simp [delFifo]
      rw [hd]
      cases hf : findFifo rest k with
      | none => rfl
      | some v =>
        exact absurd (List.mem_map_of_mem Prod.fst (findFifo_mem _ _ _ hf))
          h.1
    · simp only [delFifo, if_neg hk, findFifo, if_neg hk]
      exact ih h.2

theorem fifo_add_loop_good (price : ℚ) (fifo : Fifo) :
    ∀ (q : ℤ) (pnl : ℚ) (s : ℤ), q ≠ 0 →
    (∀ lot ∈ fifo, lot.quantity ≠ 0) →
    (∀ lot ∈ fifo, sign lot.quantity = s) →
    (∀ lot ∈ (fifo_add_loop price q fifo pnl).2, lot.quantity ≠ 0) ∧
      ∃ t, ∀ lot ∈ (fifo_add_loop price q fifo pnl).2,
        sign lot.quantity = t := by
  induction fifo with
  | nil =>
    intro q pnl s hq _ _
    have hout : (fifo_add_loop price q [] pnl).2 = [⟨price, q⟩] := rfl
    rw [hout]
    constructor
    · intro l hl
      rw [List.mem_singleton] at hl
      simp [hl, hq]
    · refine ⟨sign q, ?_⟩
      intro l hl
      rw [List.mem_singleton] at hl
      simp [hl]
  | cons lot rest ih =>
    intro q pnl s hq hnz hs
    by_cases hsign : sign lot.quantity = sign q
    · have hout : (fifo_add_loop price q (lot :: rest) pnl).2 =
          lot :: (rest ++ [⟨price, q⟩]) := by
        simp [fifo_add_loop, hsign]
      rw [hout]
      have hmem : ∀ l : Lot, l ∈ lot :: (rest ++ [⟨price, q⟩]) →
          l = lot ∨ l ∈ rest ∨ l = ⟨price, q⟩ := by
        intro l hl
        rcases List.mem_cons.mp hl with h1 | h1
        · exact Or.inl h1
        · rcases List.mem_append.mp h1 with h2 | h2
          · exact Or.inr (Or.inl h2)
          · exact Or.inr (Or.inr (List.mem_singleton.mp h2))
      constructor
      · intro l hl
        rcases hmem l hl with hl | hl | hl
        · exact hl ▸ hnz lot (List.mem_cons_self _ _)
        · exact hnz l (List.mem_cons_of_mem _ hl)
        · simp [hl, hq]
      · refine ⟨sign q, ?_⟩
        intro l hl
        have hls : s = sign q := by
          rw [← hs lot (List.mem_cons_self _ _)]; exact hsign
        rcases hmem l hl with hl | hl | hl
        · rw [hl]; exact hsign
        · rw [hs l (List.mem_cons_of_mem _ hl)]; exact hls
        · simp [hl]
    · by_cases habs : |lot.quantity| ≥ |q|
      · by_cases hz : lot.quantity + q = 0
        · have hout : (fifo_add_loop price q (lot :: rest) pnl).2 =
              rest := by
            simp [fifo_add_loop, hsign, habs, hz]
          rw [hout]
          constructor
          · intro l hl
            exact hnz l (List.mem_cons_of_mem _ hl)
          · refine ⟨s, ?_⟩
            intro l hl
            exact hs l (List.mem_cons_of_mem _ hl)
        · have hout : (fifo_add_loop price q (lot :: rest) pnl).2 =
              ⟨lot.price, lot.quantity + q⟩ :: rest := by
            simp [fifo_add_loop, hsign, habs, hz]
          rw [hout]
          have hsa : sign (lot.quantity + q) = sign lot.quantity :=
            absorb_sign lot.quantity q hsign habs hz
          constructor
          · intro l hl
            rcases List.mem_cons.mp hl with hl | hl
            · simp [hl, hz]
            · exact hnz l (List.mem_cons_of_mem _ hl)
          · refine ⟨s, ?_⟩
            intro l hl
            rcases List.mem_cons.mp hl with hl | hl
            · rw [hl]
              show sign (lot.quantity + q) = s
              rw [hsa]
              exact hs lot (List.mem_cons_self _ _)
            · exact hs l (List.mem_cons_of_mem _ hl)
      · obtain ⟨hq2, _⟩ :=
          consume_nz lot.quantity q hsign (lt_of_not_ge habs)
        have hrw : fifo_add_loop price q (lot :: rest) pnl =
            fifo_add_loop price (q + lot.quantity) rest
              (pnl + (lot.quantity : ℚ) * (price - lot.price)) := by
          simp [fifo_add_loop, hsign, habs]
        rw [hrw]
        exact ih (q + lot.quantity) _ s hq2
          (fun l hl => hnz l (List.mem_cons_of_mem _ hl))
          (fun l hl => hs l (List.mem_cons_of_mem _ hl))

theorem fifo_add_good (fifos : Fifos) (q : ℤ) (p : ℚ) (a : String)
    (hq : q ≠ 0) (h : goodFifos fifos) :
    goodFifos (fifo_add fifos q p a).2 := by
  have hfifo : (∀ lot ∈ (findFifo fifos a).getD [], lot.quantity ≠ 0) ∧
      ∃ s, ∀ lot ∈ (findFifo fifos a).getD [], sign lot.quantity = s := by
    cases hf : findFifo fifos a with
    | none => exact ⟨by simp, 1, by simp⟩
    | some v =>
      have hv := h (a, v) (findFifo_mem _ _ _ hf)
      exact ⟨hv.2.1, hv.2.2⟩
  obtain ⟨hnz, s, hs⟩ := hfifo
  have hloop := fifo_add_loop_good p ((findFifo fifos a).getD []) q 0 s
    hq hnz hs
  unfold fifo_add
  by_cases hres : (fifo_add_loop p q ((findFifo fifos a).getD []) 0).2 = []
  · simp only [if_pos hres]
    intro e he
    exact h e (mem_delFifo _ _ _ he)
  · simp only [if_neg hres]
    intro e he
    rcases mem_setFifo _ _ _ _ he with he | he
    · subst he
      exact ⟨hres, hloop.1, hloop.2⟩
    · exact h e he

theorem reachable_good (fifos : Fifos) (h : ReachableNZ fifos) :
    goodFifos fifos := by
  induction h with
  | empty => intro e he; simp at he
  | step f q p a _ hq ih => exact fifo_add_good f q p a hq ih

theorem sum_pos_of_forall_pos (l : List ℤ) (h : ∀ x ∈ l, 0 < x)
    (hne : l ≠ []) : 0 < l.sum := by
  induction l with
  | nil => exact absurd rfl hne
  | cons x xs ih =>
    rcases eq_or_ne xs [] with rfl | hxs
    · simpa using h x (List.mem_cons_self _ _)
    · have h1 := h x (List.mem_cons_self _ _)
      have h2 := ih (fun y hy => h y (List.mem_cons_of_mem _ hy)) hxs
      rw [List.sum_cons]
      linarith

theorem sum_neg_of_forall_neg (l : List ℤ) (h : ∀ x ∈ l, x < 0)
    (hne : l ≠ []) : l.sum < 0 := by
  induction l with
  | nil => exact absurd rfl hne
  | cons x xs ih =>
    rcases eq_or_ne xs [] with rfl | hxs
    · simpa using h x (List.mem_cons_self _ _)
    · have h1 := h x (List.mem_cons_self _ _)
      have h2 := ih (fun y hy => h y (List.mem_cons_of_mem _ hy)) hxs
      rw [List.sum_cons]
      linarith

theorem sign_vals (x : ℤ) : sign x = 1 ∨ sign x = -1 := by
  unfold sign; split <;> simp

theorem sum_quantity_ne_zero (l : Fifo) (s : ℤ) (hne : l ≠ [])
    (hnz : ∀ lot ∈ l, lot.quantity ≠ 0)
    (hs : ∀ lot ∈ l, sign lot.quantity = s) :
    (l.map Lot.quantity).sum ≠ 0 := by
  obtain ⟨lot, rest, rfl⟩ := List.exists_cons_of_ne_nil hne
  rcases sign_vals lot.quantity with h1 | h1
  · have hpos : ∀ x ∈ (lot :: rest).map Lot.quantity, 0 < x := by
      intro x hx
      obtain ⟨l2, hl2, rfl⟩ := List.mem_map.mp hx
      have := (hs l2 hl2).trans ((hs lot (List.mem_cons_self _ _)).symm.trans h1)
      have h0 := (sign_eq_one_iff_nonneg l2.quantity).mp this
      have := hnz l2 hl2
      omega
    have := sum_pos_of_forall_pos _ hpos (by simp)
    omega
  · have hneg : ∀ x ∈ (lot :: rest).map Lot.quantity, x < 0 := by
      intro x hx
      obtain ⟨l2, hl2, rfl⟩ := List.mem_map.mp hx
      have := (hs l2 hl2).trans ((hs lot (List.mem_cons_self _ _)).symm.trans h1)
      exact (sign_eq_neg_one_iff_neg l2.quantity).mp this
    have := sum_neg_of_forall_neg _ hneg (by simp)
    omega

theorem loop_residual_sign (fifo : Fifo) :
    ∀ (q r : ℤ), q ≠ 0 → loop_residual q fifo = some r →
    sign r = sign q ∧ r ≠ 0 := by
  induction fifo with
  | nil =>
    intro q r hq h
    have : q = r := by simpa [loop_residual] using h
    subst this
    exact ⟨rfl, hq⟩
  | cons lot rest ih =>
    intro q r hq h
    by_cases hsign : sign lot.quantity = sign q
    · have : q = r := by simpa [loop_residual, hsign] using h
      subst this
      exact ⟨rfl, hq⟩
    · by_cases habs : |lot.quantity| ≥ |q|
      · simp [loop_residual, hsign, habs] at h
      · have hrw : loop_residual q (lot :: rest) =
            loop_residual (q + lot.quantity) rest := by
          simp [loop_residual, hsign, habs]
        rw [hrw] at h
        obtain ⟨hq2, hs2⟩ :=
          consume_nz lot.quantity q hsign (lt_of_not_ge habs)
        obtain ⟨h1, h2⟩ := ih (q + lot.quantity) r hq2 h
        exact ⟨h1.trans hs2, h2⟩

theorem loop_residual_append (price : ℚ) (fifo : Fifo) :
    ∀ (q r : ℤ) (pnl : ℚ), loop_residual q fifo = some r →
    (fifo_add_loop price q fifo pnl).2.getLast? = some ⟨price, r⟩ := by
  induction fifo with
  | nil =>
    intro q r pnl h
    have : q = r := by simpa [loop_residual] using h
    subst this
    rfl
  | cons lot rest ih =>
    intro q r pnl h
    by_cases hsign : sign lot.quantity = sign q
    · have hqr : q = r := by simpa [loop_residual, hsign] using h
      subst hqr
      have hout : (fifo_add_loop price q (lot :: rest) pnl).2 =
          (lot :: rest) ++ [⟨price, q⟩] := by
        simp [fifo_add_loop, hsign]
      rw [hout, List.getLast?_concat]
    · by_cases habs : |lot.quantity| ≥ |q|
      · simp [loop_residual, hsign, habs] at h
      · have hrl : loop_residual q (lot :: rest) =
            loop_residual (q + lot.quantity) rest := by
          simp [loop_residual, hsign, habs]
        rw [hrl] at h
        have hrw : fifo_add_loop price q (lot :: rest) pnl =
            fifo_add_loop price (q + lot.quantity) rest
              (pnl + (lot.quantity : ℚ) * (price - lot.price)) := by
          simp [fifo_add_loop, hsign, habs]
        rw [hrw]
        exact ih _ r _ h

theorem fifo_add_loop_fuel_spec (price : ℚ) (fifo : Fifo) :
    ∀ (n : ℕ) (q : ℤ) (pnl : ℚ), fifo.length < n →
    fifo_add_loop_fuel price n q fifo pnl =
      some (fifo_add_loop price q fifo pnl) := by
  induction fifo with
  | nil =>
    intro n q pnl hn
    match n with
    | 0 => omega
    | m + 1 => rfl
  | cons lot rest ih =>
    intro n q pnl hn
    match n with
    | 0 => simp at hn
    | m + 1 =>
      by_cases hsign : sign lot.quantity = sign q
      · simp [fifo_add_loop_fuel, fifo_add_loop, hsign]
      · by_cases habs : |lot.quantity| ≥ |q|
        · simp [fifo_add_loop_fuel, fifo_add_loop, hsign, habs]
        · have h1 : fifo_add_loop_fuel price (m + 1) q (lot :: rest) pnl =
              fifo_add_loop_fuel price m (q + lot.quantity) rest
                (pnl + (lot.quantity : ℚ) * (price - lot.price)) := by
            simp [fifo_add_loop_fuel, hsign, habs]
          have h2 : fifo_add_loop price q (lot :: rest) pnl =
              fifo_add_loop price (q + lot.quantity) rest
                (pnl + (lot.quantity : ℚ) * (price - lot.price)) := by
            simp [fifo_add_loop, hsign, habs]
          rw [h1, h2]
          exact ih m _ _ (by simpa using Nat.lt_of_succ_lt_succ hn)

/-- C2 counterexample: calling `fifo_add` with quantity `0` on the empty
ledger map creates an entry for the asset holding the single zero-quantity
lot `{100, 0}`, so the ledger map is not left unchanged. -/
theorem zero_quantity_changes_ledger :
    (fifo_add [] 0 100 "a").2 = [("a", [⟨100, 0⟩])] ∧
      (fifo_add [] 0 100 "a").2 ≠ [] := by
  have h : (fifo_add [] 0 100 "a").2 = [("a", [⟨100, 0⟩])] := by
    norm_num [fifo_add, fifo_add_loop, findFifo, setFifo, sign]
  exact ⟨h, by rw [h]; simp⟩

/-- C2 amended: a call with quantity `0` always returns PnL `0`, but it
leaves the ledger map unchanged only when the asset's queue is present
with a front lot of negative quantity (the full-absorption branch, which
adds `0` to the front lot).  In every other case — key absent, queue
empty, or a front lot with `quantity >= 0` — a zero-quantity lot
`{price, 0}` is appended to the asset's queue, creating the entry if
absent. -/
theorem fifo_add_zero_quantity (fifos : Fifos) (a : String) (p : ℚ) :
    (fifo_add fifos 0 p a).1 = 0 ∧
    (fifo_add fifos 0 p a).2 =
      (match findFifo fifos a with
       | none => setFifo fifos a [⟨p, 0⟩]
       | some [] => setFifo fifos a [⟨p, 0⟩]
       | some (lot :: rest) =>
         if 0 ≤ lot.quantity then
           setFifo fifos a (lot :: (rest ++ [⟨p, 0⟩]))
         else fifos) := by
  cases hf : findFifo fifos a with
  | none =>
    constructor <;> simp [fifo_add, hf, fifo_add_loop]
  | some v =>
    cases v with
    | nil =>
      constructor <;> simp [fifo_add, hf, fifo_add_loop]
    | cons lot rest =>
      obtain ⟨lp, lq⟩ := lot
      by_cases hlq : 0 ≤ lq
      · have hsign : sign lq = sign 0 := by simp [sign, hlq]
        constructor <;> simp [fifo_add, hf, fifo_add_loop, hsign, hlq]
      · have hsign : ¬ sign lq = sign 0 := by simp [sign, hlq]
        have hne : lq ≠ 0 := by omega
        constructor
        · simp [fifo_add, hf, fifo_add_loop, hsign, hne]
        · simp only [fifo_add, hf, fifo_add_loop, if_neg hsign,
            Option.getD_some]
          have habs : |lq| ≥ |(0 : ℤ)| := by simp
          rw [if_pos habs]
          simp only [add_zero, if_neg hne]
          simp [hlq, setFifo_self fifos a _ hf]

/-- C4 counterexample: the state reached from the empty map by the single
call `fifo_add(_, 0, 7, "b")` contains the lot `{7, 0}` with quantity
exactly `0`, so the claimed invariant fails for sequences that include a
zero-quantity call. -/
theorem lot_invariant_zero_lot_cex :
    (fifo_add [] 0 7 "b").2 = [("b", [⟨7, 0⟩])] ∧
      ¬ (∀ e ∈ (fifo_add [] 0 7 "b").2, ∀ lot ∈ e.2,
          lot.quantity ≠ 0) := by
  have h : (fifo_add [] 0 7 "b").2 = [("b", [⟨7, 0⟩])] := by
    norm_num [fifo_add, fifo_add_loop, findFifo, setFifo, sign]
  refine ⟨h, ?_⟩
  rw [h]
  intro hc
  exact hc ("b", [⟨7, 0⟩]) (by simp) ⟨7, 0⟩ (by simp) rfl

/-- C4 amended: in every state reachable from the empty map by `fifo_add`
calls with NON-ZERO quantity, every lot has non-zero quantity and all
lots of one asset's queue have the same `sign` (never simultaneously long
and short).  The restriction to non-zero quantities is forced by the
counterexample: a zero-quantity call appends a zero lot. -/
theorem lot_invariant_reachable (fifos : Fifos) (h : ReachableNZ fifos) :
    ∀ e ∈ fifos, (∀ lot ∈ e.2, lot.quantity ≠ 0) ∧
      ∀ l1 ∈ e.2, ∀ l2 ∈ e.2, sign l1.quantity = sign l2.quantity := by
  intro e he
  obtain ⟨_, hnz, s, hs⟩ := reachable_good fifos h e he
  exact ⟨hnz, fun l1 h1 l2 h2 => (hs l1 h1).trans (hs l2 h2).symm⟩

theorem lot_invariant_reachable_witness :
    (Lot.mk 100 3).quantity ≠ 0 := by
  have hr : ReachableNZ (fifo_add (fifo_add [] 5 100 "w").2
      (-2) 110 "w").2 :=
    ReachableNZ.step _ (-2) 110 "w"
      (ReachableNZ.step _ 5 100 "w" ReachableNZ.empty (by norm_num))
      (by norm_num)
  have hmem : ("w", [Lot.mk 100 3]) ∈
      (fifo_add (fifo_add [] 5 100 "w").2 (-2) 110 "w").2 := by
    norm_num [fifo_add, fifo_add_loop, findFifo, setFifo, sign]
  exact (lot_invariant_reachable _ hr ("w", [Lot.mk 100 3]) hmem).1
    (Lot.mk 100 3) (by simp)

/-- C5 counterexample: the sequence `+5@4`, `0@3`, `-5@6` on asset `c`
(the middle call has quantity `0`) ends in the state
`[("c", [{3, 0}])]`: the net open quantity of `c` has been reduced to
exactly `0`, yet the key is still present in the ledger map. -/
theorem flat_position_key_present_cex :
    netQuantity
        (fifo_add (fifo_add (fifo_add [] 5 4 "c").2 0 3 "c").2
          (-5) 6 "c").2 "c" = 0 ∧
      findFifo
        (fifo_add (fifo_add (fifo_add [] 5 4 "c").2 0 3 "c").2
          (-5) 6 "c").2 "c" ≠ none := by
  have h : (fifo_add (fifo_add (fifo_add [] 5 4 "c").2 0 3 "c").2
      (-5) 6 "c").2 = [("c", [⟨3, 0⟩])] := by
    norm_num [fifo_add, fifo_add_loop, findFifo, setFifo, delFifo, sign]
  rw [h]
  constructor
  · norm_num [netQuantity, findFifo]
  · simp [findFifo]

/-- C5 amended: in every state reachable from the empty map by `fifo_add`
calls with NON-ZERO quantity, an asset whose net open quantity is zero is
absent from the ledger map, and no key is ever present with an empty
queue.  The restriction to non-zero quantities is forced by the
counterexample. -/
theorem flat_absent_reachable (fifos : Fifos) (h : ReachableNZ fifos)
    (a : String) :
    (netQuantity fifos a = 0 → findFifo fifos a = none) ∧
      findFifo fifos a ≠ some [] := by
  cases hf : findFifo fifos a with
  | none => exact ⟨fun _ => rfl, by simp⟩
  | some v =>
    obtain ⟨hvne, hnz, s, hs⟩ :=
      reachable_good fifos h (a, v) (findFifo_mem _ _ _ hf)
    constructor
    · intro hnet
      exfalso
      have hsum := sum_quantity_ne_zero v s hvne hnz hs
      unfold netQuantity at hnet
      rw [hf] at hnet
      exact hsum hnet
    · intro hc
      rw [Option.some.injEq] at hc
      exact hvne hc

theorem flat_absent_reachable_witness :
    findFifo (fifo_add [] 5 4 "v").2 "v" ≠ some [] :=
  (flat_absent_reachable _
    (ReachableNZ.step _ 5 4 "v" ReachableNZ.empty (by norm_num)) "v").2

/-- C6: whenever the front lot of the asset's queue has opposite `sign`
to the incoming quantity and at least its magnitude, `fifo_add` returns
at once with PnL `quantity * (front.price - price)`, adds the incoming
quantity to the front lot, removes the lot if it becomes exactly zero,
and removes the asset key if the queue then empties — the rest of the
queue is never examined and is returned untouched. -/
theorem fifo_add_full_absorb (fifos : Fifos) (q : ℤ) (p : ℚ)
    (a : String) (lot : Lot) (rest : Fifo)
    (hf : findFifo fifos a = some (lot :: rest))
    (hsign : sign lot.quantity ≠ sign q)
    (habs : |lot.quantity| ≥ |q|) :
    fifo_add fifos q p a =
      ((q : ℚ) * (lot.price - p),
        if lot.quantity + q = 0 then
          (if rest = [] then delFifo fifos a else setFifo fifos a rest)
        else setFifo fifos a (⟨lot.price, lot.quantity + q⟩ :: rest)) := by
  have hloop : fifo_add_loop p q (lot :: rest) 0 =
      ((q : ℚ) * (lot.price - p),
        if lot.quantity + q = 0 then rest
        else ⟨lot.price, lot.quantity + q⟩ :: rest) := by
    simp [fifo_add_loop, hsign, habs]
  simp only [fifo_add, hf, Option.getD_some, hloop]
  by_cases hz : lot.quantity + q = 0
  · by_cases hrest : rest = []
    · simp [hz, hrest]
    · simp [hz, hrest]
  · simp [hz]

theorem fifo_add_full_absorb_witness :
    fifo_add [("a", [Lot.mk 100 5, Lot.mk 200 7])] (-5) 150 "a"
      = (250, [("a", [Lot.mk 200 7])]) := by
  have h := fifo_add_full_absorb [("a", [⟨100, 5⟩, ⟨200, 7⟩])] (-5) 150
    "a" ⟨100, 5⟩ [⟨200, 7⟩] rfl (by decide) (by decide)
  rw [h]
  norm_num [setFifo]

/-- C7: for an `Expiration` / `Exercise` / `Assignment` event (whose
`Buy/Sell` cell is `nan`), the processing loop negates the event quantity
exactly when the existing position for the asset is long (front lot
quantity positive), keeps it unchanged when the position is short, and
raises (aborting the run) when the asset has no open position. -/
theorem direction_inference_resolve (fifos : Fifos) (a tsub : String)
    (q : ℤ)
    (hsub : tsub = "Expiration" ∨ tsub = "Exercise"
      ∨ tsub = "Assignment") :
    (∀ lot rest, findFifo fifos a = some (lot :: rest) →
      0 < lot.quantity →
      resolve_quantity fifos a tsub none q = .ok (-q)) ∧
    (∀ lot rest, findFifo fifos a = some (lot :: rest) →
      lot.quantity ≤ 0 →
      resolve_quantity fifos a tsub none q = .ok q) ∧
    (findFifo fifos a = none →
      ∃ e, resolve_quantity fifos a tsub none q = .error e) := by
  refine ⟨?_, ?_, ?_⟩
  · intro lot rest hf hpos
    simp [resolve_quantity, fifos_islong, hf, hsub, hpos]
  · intro lot rest hf hneg
    simp [resolve_quantity, fifos_islong, hf, hsub, not_lt.mpr hneg]
  · intro hf
    exact ⟨"KeyError", by simp [resolve_quantity, fifos_islong, hf, hsub]⟩

theorem direction_inference_resolve_witness :
    resolve_quantity [("A", [Lot.mk 1 2])] "A" "Expiration" none 2
      = .ok (-2) :=
  (direction_inference_resolve [("A", [Lot.mk 1 2])] "A" "Expiration" 2
    (Or.inl rfl)).1 (Lot.mk 1 2) [] rfl (by norm_num)

/-- C8: the FIFO match operation is total and never raises: for every
ledger-map state, asset key, integer quantity and price, the fuelled
model of the `while` loop (in which running out of fuel or hitting an
unguarded deque access would surface as `none`) completes within
`length + 1` iterations and returns exactly `fifo_add`'s value — no
error branch is reachable. -/
theorem fifo_add_total (fifos : Fifos) (q : ℤ) (p : ℚ) (a : String) :
    fifo_add_fuel fifos q p a = some (fifo_add fifos q p a) := by
  simp only [fifo_add_fuel, fifo_add]
  rw [fifo_add_loop_fuel_spec p ((findFifo fifos a).getD [])
    (((findFifo fifos a).getD []).length + 1) q 0 (by omega)]

/-- C9: frame property of `fifo_add`: a call for asset `a` leaves the
binding of every other key `b` unchanged, and both the returned PnL and
the resulting queue of `a` depend only on `a`'s queue and the call's
arguments — two ledger maps agreeing on `a` produce the same PnL and the
same queue for `a`.  `keysNodup` states that the association lists model
Python dicts (unique keys). -/
theorem fifo_add_frame (fifos1 fifos2 : Fifos) (q : ℤ) (p : ℚ)
    (a b : String) (hb : b ≠ a)
    (h1 : keysNodup fifos1) (h2 : keysNodup fifos2)
    (hagree : findFifo fifos1 a = findFifo fifos2 a) :
    findFifo (fifo_add fifos1 q p a).2 b = findFifo fifos1 b ∧
    (fifo_add fifos1 q p a).1 = (fifo_add fifos2 q p a).1 ∧
    findFifo (fifo_add fifos1 q p a).2 a =
      findFifo (fifo_add fifos2 q p a).2 a := by
  simp only [fifo_add, ← hagree]
  by_cases hres :
      (fifo_add_loop p q ((findFifo fifos1 a).getD []) 0).2 = []
  · simp only [if_pos hres]
    exact ⟨findFifo_delFifo_ne _ _ _ hb, by trivial,
      by rw [findFifo_delFifo_self _ _ h1, findFifo_delFifo_self _ _ h2]⟩
  · simp only [if_neg hres]
    exact ⟨findFifo_setFifo_ne _ _ _ _ hb, by trivial,
      by rw [findFifo_setFifo_self, findFifo_setFifo_self]⟩

theorem fifo_add_frame_witness :
    findFifo
      (fifo_add [("a", [Lot.mk 1 1]), ("x", [Lot.mk 2 2])] 3 5 "a").2 "x"
      = some [Lot.mk 2 2] := by
  have h := fifo_add_frame [("a", [Lot.mk 1 1]), ("x", [Lot.mk 2 2])]
    [("a", [Lot.mk 1 1])] 3 5 "a" "x" (by decide)
    (by unfold keysNodup; decide) (by unfold keysNodup; decide) rfl
  rw [h.1]
  rfl

/-- C10: inside one `fifo_add` call with non-zero incoming quantity, the
residual quantity keeps the sign of the original quantity and never
reaches zero at a loop exit that appends (each consumed front lot has
magnitude strictly below the residual's), so the lot appended after the
loop — the last lot of the resulting queue — carries the original
quantity's sign, and the exit `quantity == 0` out of the loop is
unreachable. -/
theorem loop_residual_sign_invariant (fifo : Fifo) (q r : ℤ)
    (p pnl : ℚ) (hq : q ≠ 0) (hres : loop_residual q fifo = some r) :
    sign r = sign q ∧ r ≠ 0 ∧
      (fifo_add_loop p q fifo pnl).2.getLast? = some ⟨p, r⟩ := by
  obtain ⟨h1, h2⟩ := loop_residual_sign fifo q r hq hres
  exact ⟨h1, h2, loop_residual_append p fifo q r pnl hres⟩

theorem loop_residual_sign_invariant_witness :
    sign 2 = sign 5 ∧ (2 : ℤ) ≠ 0 ∧
      (fifo_add_loop 2 5 [Lot.mk 10 (-3)] 0).2.getLast?
        = some (Lot.mk 2 2) :=
  loop_residual_sign_invariant [Lot.mk 10 (-3)] 5 2 2 0 (by decide)
    (by decide)

/-- C3 counterexample: an option row (`expire` present) with raw quoted
price `1`, amount `100` and fees `1`: the consistency check passes
(`-(quantity * price * 100) = 100 = amount`), but the per-unit price that
reaches `fifo_add` is `abs((amount - fees) / quantity) = 99`, not the
multiplied raw price `1 * 100 = 100`. -/
theorem option_price_not_multiplier :
    trade_inputs []
        { tsubcode := "Sell to Open", buysell := some "Sell",
          callput := some "P", quantity := 1, symbol := "XYZ",
          expire := some "01/17/2020", strike := 50, price := some 1,
          fees := 1, amount := 100 }
      = .ok ("XYZ P50 20-01-17", -1, 99, false) ∧ (99 : ℚ) ≠ 1 * 100 := by
  constructor
  · norm_num [trade_inputs, resolve_quantity, check_trade, isclose,
      option_asset, strike_str, convert_expire]
    rfl
  · norm_num

/-- C3 amended: for every option event (row with a non-missing expiration
date) on which the processing loop succeeds, the per-unit price passed to
`fifo_add` equals `abs((amount - fees) / quantity)` with the resolved
signed quantity (line 260 of the source); the raw quoted price times the
contract multiplier 100 is used only in the consistency check, and the
passed price coincides with `price * 100` in the fee-free exact case
`fees = 0` and `amount = -(quantity * price * 100)`. -/
theorem option_price_effective (fifos : Fifos) (row : Row) (e : String)
    (asset : String) (q2 : ℤ) (p2 : ℚ) (cs : Bool)
    (hexp : row.expire = some e)
    (hok : trade_inputs fifos row = .ok (asset, q2, p2, cs)) :
    p2 = |(row.amount - row.fees) / (q2 : ℚ)| ∧
      (row.fees = 0 →
        row.amount = -((q2 : ℚ) * (row.price.getD 0 * 100)) →
        p2 = row.price.getD 0 * 100) := by
  unfold trade_inputs at hok
  rw [hexp] at hok
  by_cases hneg : row.price.getD 0 < 0
  · rw [if_pos hneg] at hok
    exact absurd hok (by simp)
  · rw [if_neg hneg] at hok
    simp only [] at hok
    cases hr : resolve_quantity fifos
        (option_asset row.symbol (row.callput.getD "nan")
          (strike_str row.strike) (convert_expire e))
        row.tsubcode row.buysell row.quantity with
    | error err =>
      rw [hr] at hok
      exact absurd hok (by simp)
    | ok q3 =>
      rw [hr] at hok
      simp only [] at hok
      cases hc : check_trade row.tsubcode
          (-((q3 : ℚ) * (row.price.getD 0 * 100))) row.amount with
      | error err =>
        rw [hc] at hok
        exact absurd hok (by simp)
      | ok u =>
        rw [hc] at hok
        simp only [] at hok
        by_cases hq0 : q3 = 0
        · rw [if_pos hq0] at hok
          exact absurd hok (by simp)
        · rw [if_neg hq0] at hok
          simp only [Except.ok.injEq, Prod.mk.injEq] at hok
          obtain ⟨h1, h2, h3, h4⟩ := hok
          subst h2
          constructor
          · exact h3.symm
          · intro hfees hamt
            rw [← h3, hfees, hamt, sub_zero, neg_div,
              mul_div_cancel_left₀ _ (Int.cast_ne_zero.mpr hq0), abs_neg]
            exact abs_of_nonneg (by
              have : 0 ≤ row.price.getD 0 := not_lt.mp hneg
              positivity)

theorem option_price_effective_witness :
    (100 : ℚ) = |((100 : ℚ) - 0) / ((-1 : ℤ) : ℚ)| ∧
      (100 : ℚ) = 1 * 100 := by
  have hok : trade_inputs []
      { tsubcode := "Sell to Open", buysell := some "Sell",
        callput := some "C", quantity := 1, symbol := "ZZZ",
        expire := some "03/20/2020", strike := 42, price := some 1,
        fees := 0, amount := 100 }
      = .ok ("ZZZ C42 20-03-20", -1, 100, false) := by
    norm_num [trade_inputs, resolve_quantity, check_trade, isclose,
      option_asset, strike_str, convert_expire]
    rfl
  have h := option_price_effective []
    { tsubcode := "Sell to Open", buysell := some "Sell",
      callput := some "C", quantity := 1, symbol := "ZZZ",
      expire := some "03/20/2020", strike := 42, price := some 1,
      fees := 0, amount := 100 }
    "03/20/2020" "ZZZ C42 20-03-20" (-1) 100 false rfl hok
  exact ⟨h.1, h.2 rfl (by norm_num)⟩
